import Mathlib

/-!
Verification of the soupy markup-parsing and querying library.

The development shallowly embeds the strict HTML parser
(src/parser/html/strict.rs), the node tree model (src/node.rs,
src/parser/html/node.rs), the filter combinators (src/filter.rs), the
pattern abstraction (src/pattern.rs) and the query engine (src/query.rs)
as executable Lean definitions, and proves the specified properties
about them.

Strings are modelled as `String` / `List Char`; the nom parser
combinators are modelled as functions `List Char → Option (List Char × α)`
returning the remaining input and the parsed value, with `none` for a
parse error.  `BTreeMap<&str, &str>` is modelled as a sorted association
list built by ordered insertion.
-/

/-- Model of `HTMLNode` (src/parser/html/node.rs): a closed tagged union
of comment, doctype, element, raw element, void element and text nodes.
Attribute maps are sorted association lists standing for `BTreeMap`. -/
inductive HTMLNode where
  | comment (t : String)
  | doctype (t : String)
  | element (name : String) (attrs : List (String × String)) (children : List HTMLNode)
  | rawElement (name : String) (attrs : List (String × String)) (content : String)
  | void (name : String) (attrs : List (String × String))
  | text (t : String)

/-- Model of `HTMLNode::name` (src/node.rs): only `Element`, `RawElement`
and `Void` carry a name. -/
def nodeName : HTMLNode → Option String
  | .element n _ _ => some n
  | .rawElement n _ _ => some n
  | .void n _ => some n
  | _ => none

/-- Model of `HTMLNode::attrs` (src/node.rs): only `Element`, `RawElement`
and `Void` carry an attribute map. -/
def nodeAttrs : HTMLNode → Option (List (String × String))
  | .element _ a _ => some a
  | .rawElement _ a _ => some a
  | .void _ a => some a
  | _ => none

/-- Model of `Node::children` (src/parser/html/node.rs): only `Element`
has children; every other variant yields the empty slice. -/
def childrenOf : HTMLNode → List HTMLNode
  | .element _ _ cs => cs
  | _ => []

/-! ## The BTreeMap model

`attrs.into_iter().collect::<BTreeMap<_, _>>()` builds the attribute map
by inserting the parsed `(name, value)` pairs left to right; an insert
with an existing key replaces the stored value.  We model the map as an
association list kept sorted by key. -/

/-- Lexicographic strict order on character lists, the order `BTreeMap`
uses on `&str` keys (byte-wise comparison coincides with character-wise
comparison for UTF-8). -/
def charsLt : List Char → List Char → Bool
  | [], [] => false
  | [], _ :: _ => true
  | _ :: _, [] => false
  | x :: xs, y :: ys => if x < y then true else if x = y then charsLt xs ys else false

/-- Lexicographic strict order on strings. -/
def strLt (a b : String) : Bool := charsLt a.data b.data

theorem charsLt_irrefl : ∀ l : List Char, charsLt l l = false
  | [] => rfl
  | x :: xs => by simp [charsLt, lt_irrefl, charsLt_irrefl xs]

theorem charsLt_trans : ∀ {a b c : List Char},
    charsLt a b = true → charsLt b c = true → charsLt a c = true
  | [], _ :: _, _ :: _, _, _ => rfl
  | x :: xs, y :: ys, z :: zs, hab, hbc => by
    simp only [charsLt] at hab hbc ⊢
    by_cases h1 : x < y
    · by_cases h2 : y < z
      · simp [lt_trans h1 h2]
      · simp only [if_pos h1] at hab
        simp only [if_neg h2] at hbc
        by_cases h3 : y = z
        · simp [h3 ▸ h1]
        · simp [h3] at hbc
    · simp only [if_neg h1] at hab
      by_cases h3 : x = y
      · simp only [if_pos h3] at hab
        subst h3
        by_cases h2 : x < z
        · simp [h2]
        · simp only [if_neg h2] at hbc ⊢
          by_cases h4 : x = z
          · simpa [h4] using charsLt_trans hab (by simpa [h4] using hbc)
          · simp [h4] at hbc
      · simp [h3] at hab

theorem charsLt_connex : ∀ (a b : List Char), a ≠ b →
    charsLt a b = true ∨ charsLt b a = true
  | [], [], h => absurd rfl h
  | [], _ :: _, _ => Or.inl rfl
  | _ :: _, [], _ => Or.inr rfl
  | x :: xs, y :: ys, h => by
    by_cases hxy : x = y
    · subst hxy
      have hne : xs ≠ ys := fun he => h (by rw [he])
      rcases charsLt_connex xs ys hne with hc | hc
      · exact Or.inl (by simp [charsLt, lt_irrefl, hc])
      · exact Or.inr (by simp [charsLt, lt_irrefl, hc])
    · rcases lt_or_gt_of_ne hxy with hlt | hlt
      · exact Or.inl (by simp [charsLt, hlt])
      · exact Or.inr (by simp [charsLt, hlt])

theorem strLt_irrefl (s : String) : strLt s s = false := charsLt_irrefl _

theorem strLt_trans {a b c : String} (h1 : strLt a b = true) (h2 : strLt b c = true) :
    strLt a c = true := charsLt_trans h1 h2

theorem strLt_connex {a b : String} (h : a ≠ b) : strLt a b = true ∨ strLt b a = true :=
  charsLt_connex a.data b.data (fun hd => h (by cases a; cases b; simp_all))

theorem strLt_ne {a b : String} (h : strLt a b = true) : a ≠ b := by
  intro he
  subst he
  simp [strLt_irrefl] at h

/-- Ordered insertion into a sorted association list, replacing the value
when the key is already present (the behaviour of `BTreeMap::insert`). -/
def mapInsert : List (String × String) → String → String → List (String × String)
  | [], k, v => [(k, v)]
  | (k', v') :: rest, k, v =>
    if strLt k k' then (k, v) :: (k', v') :: rest
    else if k = k' then (k, v) :: rest
    else (k', v') :: mapInsert rest k v

/-- Model of `BTreeMap::from_iter` / `.collect()`: left-to-right insertion
of the parsed attribute pairs into an empty map. -/
def toMap (l : List (String × String)) : List (String × String) :=
  l.foldl (fun m p => mapInsert m p.1 p.2) []

/-- Model of `BTreeMap::get`: look a key up in the association list. -/
def mapGet : List (String × String) → String → Option String
  | [], _ => none
  | (k', v) :: rest, k => if k = k' then some v else mapGet rest k

theorem mapGet_mapInsert (m : List (String × String)) (k v k') :
    mapGet (mapInsert m k v) k' = if k' = k then some v else mapGet m k' := by
  induction m with
  | nil => simp [mapInsert, mapGet]
  | cons p rest ih =>
    obtain ⟨kh, vh⟩ := p
    by_cases h1 : strLt k kh = true
    · simp [mapInsert, h1, mapGet]
    · by_cases h2 : k = kh
      · subst h2
        simp only [mapInsert, if_neg h1, if_pos rfl, mapGet]
        by_cases h3 : k' = k <;> simp [h3]
      · simp only [mapInsert, if_neg h1, if_neg h2, mapGet]
        by_cases h3 : k' = kh
        · subst h3
          simp [Ne.symm h2, mapGet]
        · simp [h3, ih]

theorem mapGet_toMap_loop (l : List (String × String)) :
    ∀ (m : List (String × String)) (k : String),
      mapGet (l.foldl (fun m p => mapInsert m p.1 p.2) m) k =
        match l.reverse.find? (fun p => p.1 = k) with
        | some p => some p.2
        | none => mapGet m k := by
  induction l with
  | nil => intro m k; simp
  | cons p rest ih =>
    intro m k
    simp only [List.foldl_cons, List.reverse_cons, List.find?_append]
    rw [ih]
    cases hf : rest.reverse.find? (fun q => q.1 = k) with
    | some q => simp [hf]
    | none =>
      simp only [hf, Option.none_orElse]
      rw [mapGet_mapInsert]
      by_cases h : p.1 = k
      · rw [List.find?_cons_of_pos _ (by simpa using h)]
        simp [h.symm]
      · rw [List.find?_cons_of_neg _ (by simpa using h),
          List.find?_nil, if_neg (fun hk => h hk.symm)]
        rfl

/-- Looking a key up in the collected map returns the value of the last
(rightmost) pair with that key in the parsed attribute sequence. -/
theorem mapGet_toMap (l : List (String × String)) (k : String) :
    mapGet (toMap l) k =
      match l.reverse.find? (fun p => p.1 = k) with
      | some p => some p.2
      | none => none := by
  rw [toMap, mapGet_toMap_loop]
  cases l.reverse.find? (fun p => p.1 = k) <;> simp [mapGet]

theorem mem_mapInsert (m : List (String × String)) (k v p)
    (h : p ∈ mapInsert m k v) : p = (k, v) ∨ p ∈ m := by
  induction m with
  | nil => simpa [mapInsert] using h
  | cons q rest ih =>
    obtain ⟨kh, vh⟩ := q
    by_cases h1 : strLt k kh = true
    · simp only [mapInsert, if_pos h1, List.mem_cons] at h
      rcases h with h | h | h
      · exact Or.inl h
      · exact Or.inr (by simp [h])
      · exact Or.inr (by simp [h])
    · by_cases h2 : k = kh
      · simp only [mapInsert, if_neg h1, if_pos h2, List.mem_cons] at h
        rcases h with h | h
        · exact Or.inl h
        · exact Or.inr (by simp [h])
      · simp only [mapInsert, if_neg h1, if_neg h2, List.mem_cons] at h
        rcases h with h | h
        · exact Or.inr (by simp [h])
        · rcases ih h with h | h
          · exact Or.inl h
          · exact Or.inr (by simp [h])

theorem pairwise_mapInsert (m : List (String × String)) (k v)
    (h : m.Pairwise (fun a b => strLt a.1 b.1 = true)) :
    (mapInsert m k v).Pairwise (fun a b => strLt a.1 b.1 = true) := by
  induction m with
  | nil => simp [mapInsert]
  | cons q rest ih =>
    obtain ⟨kh, vh⟩ := q
    rw [List.pairwise_cons] at h
    obtain ⟨hq, hrest⟩ := h
    by_cases h1 : strLt k kh = true
    · simp only [mapInsert, if_pos h1]
      refine List.Pairwise.cons ?_ (List.Pairwise.cons hq hrest)
      intro b hb
      rcases List.mem_cons.mp hb with hb | hb
      · exact hb ▸ h1
      · exact strLt_trans h1 (hq b hb)
    · by_cases h2 : k = kh
      · simp only [mapInsert, if_neg h1, if_pos h2]
        exact List.Pairwise.cons (fun b hb => h2 ▸ hq b hb) hrest
      · simp only [mapInsert, if_neg h1, if_neg h2]
        have hk : strLt kh k = true := by
          rcases strLt_connex h2 with h | h
          · exact absurd h h1
          · exact h
        refine List.Pairwise.cons ?_ (ih hrest)
        intro b hb
        rcases mem_mapInsert rest k v b hb with hb | hb
        · simpa [hb] using hk
        · exact hq b hb

theorem pairwise_toMap (l : List (String × String)) :
    (toMap l).Pairwise (fun a b => strLt a.1 b.1 = true) := by
  suffices h : ∀ m : List (String × String),
      m.Pairwise (fun a b => strLt a.1 b.1 = true) →
      (l.foldl (fun m p => mapInsert m p.1 p.2) m).Pairwise
        (fun a b => strLt a.1 b.1 = true) by
    exact h [] (by simp)
  induction l with
  | nil => intro m hm; simpa using hm
  | cons p rest ih =>
    intro m hm
    exact ih _ (pairwise_mapInsert m p.1 p.2 hm)

/-- The keys of a collected attribute map are pairwise distinct: the map
contains each declared attribute name exactly once. -/
theorem nodup_keys_toMap (l : List (String × String)) :
    ((toMap l).map Prod.fst).Nodup := by
  rw [List.Nodup, List.pairwise_map]
  exact (pairwise_toMap l).imp (fun h => strLt_ne h)

/-! ## The Pattern abstraction

Model of the `Pattern` trait (src/pattern.rs).  The three implementations
relevant to the library are the boolean wildcard, the literal string
(`&str` / `String`, which match by exact equality and report a concrete
value), and opaque predicates such as `regex::Regex` (which match by an
arbitrary test and report no concrete value).  `asBool` models the
`as_bool` query used by the `Tag` filter (src/filter.rs): only the
boolean pattern answers it.  `value` models `Pattern::value` /
`as_str`: only literal string patterns resolve to a concrete value. -/
inductive Pat where
  | boolP (b : Bool)
  | strP (s : String)
  | predP (f : String → Bool)

/-- Pattern matching semantics: a boolean matches by its literal value
regardless of the haystack, a literal string by exact equality, an
opaque predicate by its own test. -/
def Pat.matches : Pat → String → Bool
  | .boolP b, _ => b
  | .strP s, h => h = s
  | .predP f, h => f h

/-- Model of `Pattern::value` / `as_str`: the concrete literal a pattern
resolves to, if any. -/
def Pat.value : Pat → Option String
  | .strP s => some s
  | _ => none

/-- Model of `as_bool`: only the boolean-literal pattern reports a value. -/
def Pat.asBool : Pat → Option Bool
  | .boolP b => some b
  | _ => none

/-! ## Filter combinators

Model of src/filter.rs: the unit filter, `And`, `Or`, `Tag` and `Attr`,
with `matches` following each `Filter` impl verbatim. -/
inductive Filt where
  | unit
  | and (a b : Filt)
  | or (a b : Filt)
  | tag (p : Pat)
  | attr (nameP valueP : Pat)

/-- Model of the `Filter::matches` implementations (src/filter.rs):
`()` matches everything; `And`/`Or` combine with `&&`/`||`;
`Tag` first asks the pattern for a boolean bypass, otherwise matches the
node's name if it has one; `Attr` takes the literal-name fast path when
the name pattern resolves to a concrete value, otherwise scans all
attribute pairs; nodes without attributes never match. -/
def filtMatches : Filt → HTMLNode → Bool
  | .unit, _ => true
  | .and a b, n => filtMatches a n && filtMatches b n
  | .or a b, n => filtMatches a n || filtMatches b n
  | .tag p, n =>
    match p.asBool with
    | some b => b
    | none =>
      match nodeName n with
      | some s => p.matches s
      | none => false
  | .attr np vp, n =>
    match nodeAttrs n with
    | none => false
    | some attrs =>
      match np.value with
      | some nm =>
        match mapGet attrs nm with
        | some v => vp.matches v
        | none => false
      | none => attrs.any (fun p => np.matches p.1 && vp.matches p.2)

/-! ## Depth-first pre-order traversal

`preorder` is the specification-level order: a node followed by the
pre-order sequences of its children, in document order.  `It` models
the iterator state of `HTMLNodeIter` (src/node.rs): the node being
iterated, the in-progress child iterator, and the index of the next
child to descend into. -/

mutual

/-- Pre-order, depth-first flattening of a node: the node itself first,
then each child's entire subtree in document order. -/
def preorder : HTMLNode → List HTMLNode
  | .element n a cs => .element n a cs :: preorderList cs
  | n => [n]

/-- Pre-order flattening of a sibling list: each node's subtree in full
before the next sibling. -/
def preorderList : List HTMLNode → List HTMLNode
  | [] => []
  | c :: cs => preorder c ++ preorderList cs

end

theorem preorder_eq_cons (n : HTMLNode) :
    preorder n = n :: preorderList (childrenOf n) := by
  cases n <;> rfl

/-- State of `HTMLNodeIter` (src/node.rs lines 72-76): the borrowed node,
the optional boxed child iterator, and the optional next child index. -/
inductive It where
  | mk (node : HTMLNode) (child : Option It) (nxt : Option Nat)

/-- Model of `HTMLNode::into_iter` (src/node.rs lines 108-119): a fresh
iterator has no child iterator and no next index. -/
def It.start (n : HTMLNode) : It := .mk n none none

/-- The child-exhausted arm of `HTMLNodeIter::next`: with no live child
iterator, either yield the node itself (first call), or descend into the
child at the stored index, yielding that child and priming its iterator,
or finish.  The descent inlines the first step of the fresh child
iterator, which immediately yields its root node. -/
def stepNC (node : HTMLNode) : Option Nat → Option (HTMLNode × It)
  | none => some (node, .mk node none (some 0))
  | some k =>
    match node with
    | .element nm a cs =>
      match cs[k]? with
      | some ck => some (ck, .mk (.element nm a cs) (some (.mk ck none (some 0))) (some (k + 1)))
      | none => none
    | _ => none

/-- Model of `HTMLNodeIter::next` (src/node.rs lines 78-106): drain the
live child iterator first; once it is exhausted, fall back to the
child-exhausted arm. -/
def It.step : It → Option (HTMLNode × It)
  | .mk node (some c) nxt =>
    match c.step with
    | some (v, c') => some (v, .mk node (some c') nxt)
    | none => stepNC node nxt
  | .mk node none nxt => stepNC node nxt

/-- Denotation of an iterator state: the sequence of nodes it will still
produce — the rest of the live child iterator, then the subtrees of the
children not yet descended into (or the whole pre-order sequence if the
root has not been yielded yet). -/
def It.toRest : It → List HTMLNode
  | .mk node child nxt =>
    (match child with
     | some c => c.toRest
     | none => []) ++
    (match nxt with
     | none => preorder node
     | some k => preorderList ((childrenOf node).drop k))

theorem drop_cons_of_getElem? {α : Type} (cs : List α) (k : Nat) (ck : α)
    (h : cs[k]? = some ck) : cs.drop k = ck :: cs.drop (k + 1) := by
  induction cs generalizing k with
  | nil => simp at h
  | cons x xs ih =>
    cases k with
    | zero => simp_all
    | succ k' =>
      simp only [List.getElem?_cons_succ] at h
      simpa using ih k' h

theorem stepNC_sound (node : HTMLNode) (nxt : Option Nat) :
    (stepNC node nxt = none →
      (match nxt with
       | none => preorder node
       | some k => preorderList ((childrenOf node).drop k)) = []) ∧
    (∀ v s', stepNC node nxt = some (v, s') →
      (match nxt with
       | none => preorder node
       | some k => preorderList ((childrenOf node).drop k)) = v :: s'.toRest) := by
  cases nxt with
  | none =>
    refine ⟨fun h => by simp [stepNC] at h, fun v s' h => ?_⟩
    simp only [stepNC, Option.some.injEq, Prod.mk.injEq] at h
    obtain ⟨hv, hs⟩ := h
    subst hv
    subst hs
    simp [It.toRest, preorder_eq_cons]
  | some k =>
    cases hnode : node with
    | element nm a cs =>
      cases hk : cs[k]? with
      | some ck =>
        refine ⟨fun h => by simp [stepNC, hk] at h, fun v s' h => ?_⟩
        simp only [stepNC, hk, Option.some.injEq, Prod.mk.injEq] at h
        obtain ⟨hv, hs⟩ := h
        subst hv
        subst hs
        simp only [childrenOf, It.toRest, drop_cons_of_getElem? cs k _ hk, preorderList,
          List.nil_append, childrenOf, List.drop]
        rw [preorder_eq_cons]
        simp [childrenOf]
      | none =>
        refine ⟨fun _ => ?_, fun v s' h => by simp [stepNC, hk] at h⟩
        have hlen : cs.length ≤ k := by
          by_contra hlt
          rw [List.getElem?_eq_getElem (by omega)] at hk
          simp at hk
        simp [childrenOf, List.drop_eq_nil_of_le hlen, preorderList]
    | comment t =>
      exact ⟨fun _ => by simp [childrenOf, preorderList], fun v s' h => by simp [stepNC] at h⟩
    | doctype t =>
      exact ⟨fun _ => by simp [childrenOf, preorderList], fun v s' h => by simp [stepNC] at h⟩
    | rawElement nm a ct =>
      exact ⟨fun _ => by simp [childrenOf, preorderList], fun v s' h => by simp [stepNC] at h⟩
    | void nm a =>
      exact ⟨fun _ => by simp [childrenOf, preorderList], fun v s' h => by simp [stepNC] at h⟩
    | text t =>
      exact ⟨fun _ => by simp [childrenOf, preorderList], fun v s' h => by simp [stepNC] at h⟩

/-- Coherence of one iterator step with the denotation: a `none` step
means the remaining sequence is empty, and a `some` step peels exactly
the head of the remaining sequence. -/
theorem It.step_sound : ∀ s : It,
    (s.step = none → s.toRest = []) ∧
    (∀ v s', s.step = some (v, s') → s.toRest = v :: s'.toRest)
  | .mk node (some c) nxt => by
    have ih := It.step_sound c
    constructor
    · intro h
      simp only [It.step] at h
      cases hc : c.step with
      | some p => rw [hc] at h; cases p; simp at h
      | none =>
        rw [hc] at h
        have hcrest := ih.1 hc
        simp only [It.toRest, hcrest, List.nil_append]
        exact (stepNC_sound node nxt).1 h
    · intro v s' h
      simp only [It.step] at h
      cases hc : c.step with
      | some p =>
        obtain ⟨cv, c'⟩ := p
        rw [hc] at h
        simp only [Option.some.injEq, Prod.mk.injEq] at h
        obtain ⟨hv, hs⟩ := h
        have hcrest := ih.2 cv c' hc
        rw [← hs, ← hv]
        simp [It.toRest, hcrest]
      | none =>
        rw [hc] at h
        have hcrest := ih.1 hc
        simp only [It.toRest, hcrest, List.nil_append]
        exact (stepNC_sound node nxt).2 v s' h
  | .mk node none nxt => by
    constructor
    · intro h
      simp only [It.step] at h
      simpa [It.toRest] using (stepNC_sound node nxt).1 h
    · intro v s' h
      simp only [It.step] at h
      simpa [It.toRest] using (stepNC_sound node nxt).2 v s' h

/-- Driver that pulls at most `fuel` items out of the iterator, matching
how a consumer drains the Rust iterator to completion. -/
def runIter : Nat → It → List HTMLNode
  | 0, _ => []
  | fuel + 1, s =>
    match s.step with
    | none => []
    | some (v, s') => v :: runIter fuel s'

theorem runIter_toRest : ∀ (fuel : Nat) (s : It), s.toRest.length ≤ fuel →
    runIter fuel s = s.toRest
  | 0, s, h => by
    have := List.eq_nil_of_length_eq_zero (Nat.le_zero.mp h)
    simp [runIter, this]
  | fuel + 1, s, h => by
    cases hs : s.step with
    | none => simp [runIter, hs, (It.step_sound s).1 hs]
    | some p =>
      obtain ⟨v, s'⟩ := p
      have hrest := (It.step_sound s).2 v s' hs
      have hlen : s'.toRest.length ≤ fuel := by
        rw [hrest] at h
        simpa using h
      simp [runIter, hs, hrest, runIter_toRest fuel s' hlen]

/-- The full sequence produced by iterating `HTMLNodeIter` over a node
from a fresh `into_iter` state until it reports `None`. -/
def descendantsList (n : HTMLNode) : List HTMLNode :=
  runIter (preorder n).length (It.start n)

theorem descendantsList_eq_preorder (n : HTMLNode) :
    descendantsList n = preorder n := by
  have h : (It.start n).toRest = preorder n := by simp [It.start, It.toRest]
  rw [descendantsList, ← h]
  exact runIter_toRest _ _ (le_of_eq (by rw [h]))

/-! ## The strict HTML parser

Model of src/parser/html/strict.rs.  A nom parser over `&str` becomes a
function `List Char → Option (List Char × α)`; `none` models a nom
error.  Character classes follow nom: `multispace0` accepts space, tab,
carriage return and newline. -/

/-- Character class of nom `multispace0`. -/
def isWsChar (c : Char) : Bool :=
  c = ' ' || c = '\t' || c = '\r' || c = '\n'

/-- Model of `multispace0`: drop leading whitespace. -/
def skipWs (i : List Char) : List Char :=
  i.dropWhile isWsChar

/-- Exact-prefix test used by `tag`. -/
def isPrefixL : List Char → List Char → Bool
  | [], _ => true
  | _ :: _, [] => false
  | p :: ps, x :: xs => p = x && isPrefixL ps xs

/-- ASCII lower-casing used by nom `tag_no_case`. -/
def lowerAscii (c : Char) : Char :=
  if 'A' ≤ c && c ≤ 'Z' then Char.ofNat (c.toNat + 32) else c

/-- ASCII case-insensitive prefix test used by `tag_no_case`. -/
def isPrefixNoCase : List Char → List Char → Bool
  | [], _ => true
  | _ :: _, [] => false
  | p :: ps, x :: xs => lowerAscii p = lowerAscii x && isPrefixNoCase ps xs

/-- Model of nom `tag`: consume the literal, return the remaining input. -/
def tagL (pat i : List Char) : Option (List Char) :=
  if isPrefixL pat i then some (i.drop pat.length) else none

/-- Model of nom `tag_no_case`: consume the literal case-insensitively and
return (remaining, consumed slice in its original casing). -/
def tagNoCaseL (pat i : List Char) : Option (List Char × List Char) :=
  if isPrefixNoCase pat i then some (i.drop pat.length, i.take pat.length) else none

/-- Model of nom `is_not`: the longest nonempty run of characters not in
the given set, failing on an empty run. -/
def isNotL (bad i : List Char) : Option (List Char × List Char) :=
  let tk := i.takeWhile (fun c => !(bad.contains c))
  if tk.isEmpty then none else some (i.drop tk.length, tk)

/-- Model of nom `take_until`: split the input at the first occurrence of
the pattern, returning (input starting at the pattern, consumed run);
fail when the pattern does not occur. -/
def takeUntilL (pat : List Char) : List Char → Option (List Char × List Char)
  | [] => if isPrefixL pat [] then some ([], []) else none
  | x :: xs =>
    if isPrefixL pat (x :: xs) then some (x :: xs, [])
    else
      match takeUntilL pat xs with
      | some (rem, pre) => some (rem, x :: pre)
      | none => none

/-- Model of `take_to` (src/parser/html/strict.rs lines 79-83):
`take_until` followed by consuming the pattern itself. -/
def takeToL (pat i : List Char) : Option (List Char × List Char) :=
  match takeUntilL pat i with
  | some (rem, pre) => some (rem.drop pat.length, pre)
  | none => none

/-- Whitespace class of Rust `str::trim` (`char::is_whitespace`),
restricted to its ASCII subset. -/
def isTrimWs (c : Char) : Bool :=
  c = ' ' || c = '\t' || c = '\n' || c = '\r' || c = '\x0b' || c = '\x0c'

/-- Model of `str::trim`: strip leading and trailing whitespace. -/
def trimL (l : List Char) : List Char :=
  ((l.dropWhile isTrimWs).reverse.dropWhile isTrimWs).reverse

/-- Model of nom `alphanumeric1`: one or more ASCII alphanumerics. -/
def alphanum1 (i : List Char) : Option (List Char × List Char) :=
  let tk := i.takeWhile (fun c => c.isAlphanum)
  if tk.isEmpty then none else some (i.drop tk.length, tk)

/-- Excluded characters of the attribute-name parser `attr`
(src/parser/html/strict.rs line 67): the raw string `r#" "'>/="#`. -/
def attrNameBad : List Char := [' ', '"', '\'', '>', '/', '=']

/-- Excluded characters of the unquoted attribute value
(src/parser/html/strict.rs line 111): the Rust source writes the RAW
string `r#"\t\n\f\r "'=<>`"#`, in which `\t`, `\n`, `\f`, `\r` are the
two-character sequences backslash-letter, so the excluded set is
backslash, the letters t, n, f, r, the space, and `"'=<>` with the
backtick — not the tab, newline, form-feed and carriage-return
characters. -/
def unquotedBad : List Char := ['\\', 't', '\\', 'n', '\\', 'f', '\\', 'r', ' ', '"', '\'', '=', '<', '>', '\x60']

/-- Model of `ws(char('='))`: optional whitespace, `=`, optional
whitespace. -/
def wsEq (i : List Char) : Option (List Char) :=
  match skipWs i with
  | '=' :: r => some (skipWs r)
  | _ => none

/-- Model of one attribute alternative inside `start_tag`
(src/parser/html/strict.rs lines 107-124): leading whitespace, the
attribute name, then in nom `alt` order the unquoted value, the quoted
value (single or double quotes), and the bare boolean attribute whose
value defaults to the empty string.  Failed later alternatives backtrack
to the position after the attribute name. -/
def attrOne (i : List Char) : Option (List Char × (String × String)) :=
  let i1 := skipWs i
  match isNotL attrNameBad i1 with
  | none => none
  | some (i2, nm) =>
    match wsEq i2 with
    | none => some (i2, (String.mk nm, ""))
    | some i3 =>
      match isNotL unquotedBad i3 with
      | some (i4, v) => some (i4, (String.mk nm, String.mk v))
      | none =>
        match i3 with
        | '\'' :: r =>
          match takeToL ['\''] r with
          | some (rem, v) => some (rem, (String.mk nm, String.mk v))
          | none => some (i2, (String.mk nm, ""))
        | '"' :: r =>
          match takeToL ['"'] r with
          | some (rem, v) => some (rem, (String.mk nm, String.mk v))
          | none => some (i2, (String.mk nm, ""))
        | _ => some (i2, (String.mk nm, ""))

/-- Model of nom `many0` over the attribute alternative: iterate until
failure; a successful parse that consumes nothing is a `many0` error in
nom, modelled by `none` (unreachable here because `attrOne` always
consumes). -/
def attrsLoop : Nat → List Char → Option (List Char × List (String × String))
  | 0, i => some (i, [])
  | fuel + 1, i =>
    match attrOne i with
    | none => some (i, [])
    | some (i', a) =>
      if i'.length < i.length then
        match attrsLoop fuel i' with
        | some (r, rest) => some (r, a :: rest)
        | none => none
      else none

/-- Model of `start_tag` (src/parser/html/strict.rs lines 96-131): `<`,
the name parser, the attribute loop, optional whitespace, then `/>`
(self-closing) or `>`. -/
def startTagP (inner : List Char → Option (List Char × List Char)) (i : List Char) :
    Option (List Char × (String × List (String × String) × Bool)) :=
  match i with
  | '<' :: i1 =>
    match inner i1 with
    | none => none
    | some (i2, nm) =>
      match attrsLoop i2.length i2 with
      | none => none
      | some (i3, ats) =>
        match skipWs i3 with
        | '/' :: '>' :: r => some (r, (String.mk nm, ats, true))
        | '>' :: r => some (r, (String.mk nm, ats, false))
        | _ => none
  | _ => none

/-- Model of `comment` (src/parser/html/strict.rs lines 85-87). -/
def commentP (i : List Char) : Option (List Char × HTMLNode) :=
  match tagL ['<', '!', '-', '-'] i with
  | none => none
  | some i1 =>
    match takeToL ['-', '-', '>'] i1 with
    | some (rem, t) => some (rem, .comment (String.mk t))
    | none => none

/-- Model of `doctype` (src/parser/html/strict.rs lines 89-94). -/
def doctypeP (i : List Char) : Option (List Char × HTMLNode) :=
  match tagNoCaseL "<!doctype ".data i with
  | none => none
  | some (i1, _) =>
    match takeToL ['>'] i1 with
    | some (rem, t) => some (rem, .doctype (String.mk t))
    | none => none

/-- Name alternatives of the `void` parser (src/parser/html/strict.rs
lines 135-149), tried in source order. -/
def voidInner (i : List Char) : Option (List Char × List Char) :=
  tagNoCaseL "area".data i <|> tagNoCaseL "base".data i <|> tagNoCaseL "br".data i <|>
  tagNoCaseL "col".data i <|> tagNoCaseL "embed".data i <|> tagNoCaseL "hr".data i <|>
  tagNoCaseL "img".data i <|> tagNoCaseL "input".data i <|> tagNoCaseL "link".data i <|>
  tagNoCaseL "meta".data i <|> tagNoCaseL "source".data i <|> tagNoCaseL "track".data i <|>
  tagNoCaseL "wbr".data i

/-- Model of `void` (src/parser/html/strict.rs lines 133-155): a start
tag over the fixed void-name set always yields a `Void` node, with or
without the self-close marker. -/
def voidP (i : List Char) : Option (List Char × HTMLNode) :=
  match startTagP voidInner i with
  | some (rem, (nm, ats, _)) => some (rem, .void nm (toMap ats))
  | none => none

/-- Name alternatives of `raw_element`: `script` or `style`,
case-insensitively. -/
def rawInner (i : List Char) : Option (List Char × List Char) :=
  tagNoCaseL "script".data i <|> tagNoCaseL "style".data i

/-- Model of `raw_element` (src/parser/html/strict.rs lines 157-184): a
start tag over script/style; if self-closed the content is empty;
otherwise `take_until` scans for the literal `</` followed by the parsed
name in its original casing, then the close is consumed by `tag("</")`,
`tag_no_case(name)`, optional whitespace and `>`; the scanned content is
stored trimmed of surrounding whitespace. -/
def rawElementP (i : List Char) : Option (List Char × HTMLNode) :=
  match startTagP rawInner i with
  | none => none
  | some (left, (nm, ats, true)) => some (left, .rawElement nm (toMap ats) "")
  | some (left, (nm, ats, false)) =>
    match takeUntilL ('<' :: '/' :: nm.data) left with
    | none => none
    | some (rem, content) =>
      match tagL ['<', '/'] rem with
      | none => none
      | some r1 =>
        match tagNoCaseL nm.data r1 with
        | none => none
        | some (r2, _) =>
          match skipWs r2 with
          | '>' :: r3 =>
            some (r3, .rawElement nm (toMap ats) (String.mk (trimL content)))
          | _ => none

/-- Model of `text` (src/parser/html/strict.rs lines 215-217). -/
def textP (i : List Char) : Option (List Char × HTMLNode) :=
  match isNotL ['<'] i with
  | some (rem, t) => some (rem, .text (String.mk t))
  | none => none

/-- Model of `element` (src/parser/html/strict.rs lines 186-213),
parameterized by the recursive node-sequence parser used for the
children: a start tag with an alphanumeric name; if self-closed the
children are empty; otherwise the children are parsed recursively and
the matching close tag (`</`, case-insensitive name, optional
whitespace, `>`) is consumed. -/
def elementPWith (recur : List Char → Option (List Char × List HTMLNode))
    (i : List Char) : Option (List Char × HTMLNode) :=
  match startTagP alphanum1 i with
  | none => none
  | some (left, (nm, ats, true)) => some (left, .element nm (toMap ats) [])
  | some (left, (nm, ats, false)) =>
    match recur left with
    | none => none
    | some (left2, children) =>
      match tagL ['<', '/'] left2 with
      | none => none
      | some r1 =>
        match tagNoCaseL nm.data r1 with
        | none => none
        | some (r2, _) =>
          match skipWs r2 with
          | '>' :: r3 => some (r3, .element nm (toMap ats) children)
          | _ => none

/-- Model of `single` (src/parser/html/strict.rs lines 219-221),
parameterized like `elementPWith`: the node alternatives in source order
— comment, doctype, void, raw element, element, text. -/
def singlePWith (recur : List Char → Option (List Char × List HTMLNode))
    (i : List Char) : Option (List Char × HTMLNode) :=
  commentP i <|> doctypeP i <|> voidP i <|> rawElementP i <|>
  elementPWith recur i <|> textP i

/-- Model of `parse = many0(single)` (src/parser/html/strict.rs lines
223-225): iterate `single` until it fails, collecting the nodes; a
successful parse that consumes nothing is a nom `many0` error (`none`),
unreachable because `single` always consumes.  The fuel bounds the
recursion depth; the top-level entry passes ample fuel. -/
def parseNodes : Nat → List Char → Option (List Char × List HTMLNode)
  | 0, i => some (i, [])
  | fuel + 1, i =>
    match singlePWith (parseNodes fuel) i with
    | none => some (i, [])
    | some (i', n) =>
      if i'.length < i.length then
        match parseNodes fuel i' with
        | some (r, ns) => some (r, n :: ns)
        | none => none
      else none

/-- Model of `single` with the recursion tied to `parseNodes`. -/
def singleP (fuel : Nat) : List Char → Option (List Char × HTMLNode) :=
  singlePWith (parseNodes fuel)

/-- Model of `element` with the recursion tied to `parseNodes`. -/
def elementP (fuel : Nat) : List Char → Option (List Char × HTMLNode) :=
  elementPWith (parseNodes fuel)

/-! ## Character-reference decoding

Model of the post-parse escape pass (src/parser/html/strict.rs lines
227-308).  The `ESCAPE` regular expression
`&(([a-zA-Z]+;?)|(#[0-9]+;)|(#[xX][a-fA-F0-9]+;))` is modelled by a
direct scanner with the regex crate's leftmost-first alternation and
greedy repetition semantics.  The entity tables `ENTITIES` (full match
text to replacement) and `CODEPOINTS` (codepoint to replacement) live in
src/parser/html/entities.rs, which is collaborator data not part of the
source tree; they are abstracted as function parameters `ent` and
`cod`. -/

def isAlphaA (c : Char) : Bool := ('a' ≤ c && c ≤ 'z') || ('A' ≤ c && c ≤ 'Z')

def isDigitA (c : Char) : Bool := '0' ≤ c && c ≤ '9'

def isHexA (c : Char) : Bool :=
  isDigitA c || ('a' ≤ c && c ≤ 'f') || ('A' ≤ c && c ≤ 'F')

/-- Length of the `ESCAPE` regex match starting at the head of the
input, if any: `&` followed by either letters with an optional `;`
(first alternative, preferred), or `#` digits `;`, or `#` `x`/`X` hex
digits `;`. -/
def refMatchLen (l : List Char) : Option Nat :=
  match l with
  | '&' :: rest =>
    let ls := rest.takeWhile isAlphaA
    if ls.length ≠ 0 then
      match rest.drop ls.length with
      | ';' :: _ => some (1 + ls.length + 1)
      | _ => some (1 + ls.length)
    else
      match rest with
      | '#' :: r2 =>
        let ds := r2.takeWhile isDigitA
        if ds.length ≠ 0 then
          match r2.drop ds.length with
          | ';' :: _ => some (2 + ds.length + 1)
          | _ => none
        else
          match r2 with
          | x :: r3 =>
            if x = 'x' || x = 'X' then
              let hs := r3.takeWhile isHexA
              if hs.length ≠ 0 then
                match r3.drop hs.length with
                | ';' :: _ => some (3 + hs.length + 1)
                | _ => none
              else none
            else none
          | [] => none
      | _ => none
  | _ => none

/-- Model of `trim_start_matches("&#")`: strip every leading `&#`. -/
def trimAmpHash : List Char → List Char
  | '&' :: '#' :: r => trimAmpHash r
  | l => l

/-- Model of `trim_end_matches(';')`: strip every trailing `;`. -/
def trimEndSemi (l : List Char) : List Char :=
  (l.reverse.dropWhile (fun c => c = ';')).reverse

def decVal (c : Char) : Nat := c.toNat - '0'.toNat

def hexVal (c : Char) : Nat :=
  if isDigitA c then c.toNat - '0'.toNat
  else if 'a' ≤ c && c ≤ 'f' then c.toNat - 'a'.toNat + 10
  else c.toNat - 'A'.toNat + 10

/-- Model of `u32::from_str_radix` / `str::parse::<u32>`: every character
must be a digit of the radix, the run must be nonempty, and the value
must fit in a `u32`. -/
def parseRadix (isD : Char → Bool) (dv : Char → Nat) (base : Nat) (l : List Char) :
    Option Nat :=
  if l.isEmpty then none
  else if l.all isD then
    let n := l.foldl (fun a c => a * base + dv c) 0
    if n < 4294967296 then some n else none
  else none

/-- Model of `escape_ref` (src/parser/html/strict.rs lines 231-246):
look the full match text up in the entity table; otherwise strip `&#`
prefixes and `;` suffixes, strip one `x`/`X` for a hex reference, parse
the codepoint and look it up in the codepoint table. -/
def escRef (ent : String → Option String) (cod : Nat → Option String) (m : String) :
    Option String :=
  match ent m with
  | some t => some t
  | none =>
    match trimEndSemi (trimAmpHash m.data) with
    | 'x' :: r => (parseRadix isHexA hexVal 16 r).bind cod
    | 'X' :: r => (parseRadix isHexA hexVal 16 r).bind cod
    | val => (parseRadix isDigitA decVal 10 val).bind cod

/-- Model of `escape_text` (src/parser/html/strict.rs lines 248-262) as a
left-to-right scanner: text outside matches is copied verbatim, each
match is replaced by its resolution when `escape_ref` succeeds and kept
verbatim otherwise.  The fuel bounds the scan; callers pass the input
length, which suffices because every step consumes at least one
character. -/
def scanEsc (ent : String → Option String) (cod : Nat → Option String) :
    Nat → List Char → List Char
  | 0, l => l
  | _ + 1, [] => []
  | fuel + 1, c :: rest =>
    match refMatchLen (c :: rest) with
    | some n =>
      (match escRef ent cod (String.mk ((c :: rest).take n)) with
       | some rep => rep.data
       | none => (c :: rest).take n) ++ scanEsc ent cod fuel ((c :: rest).drop n)
    | none => c :: scanEsc ent cod fuel rest

/-- Model of `escape_text` on strings. -/
def escText (ent : String → Option String) (cod : Nat → Option String) (s : String) :
    String :=
  String.mk (scanEsc ent cod s.data.length s.data)

/-- The list of `ESCAPE` matches found by the scanner (the match texts of
`find_iter`), used to state the unresolved-reference property. -/
def refsIn : Nat → List Char → List String
  | 0, _ => []
  | _ + 1, [] => []
  | fuel + 1, c :: rest =>
    match refMatchLen (c :: rest) with
    | some n => String.mk ((c :: rest).take n) :: refsIn fuel ((c :: rest).drop n)
    | none => refsIn fuel rest

/-- The `ESCAPE` matches of a string. -/
def refsInStr (s : String) : List String := refsIn s.data.length s.data

/-- Model of `escape_attrs` (src/parser/html/strict.rs lines 264-269):
keys are kept, values are decoded; re-collecting preserves the sorted
map because the keys are unchanged. -/
def escAttrsL (ent : String → Option String) (cod : Nat → Option String)
    (m : List (String × String)) : List (String × String) :=
  m.map (fun p => (p.1, escText ent cod p.2))

mutual

/-- Model of `escape_node` (src/parser/html/strict.rs lines 271-302):
comment and doctype text is kept verbatim; element and void attribute
values are decoded and element children recursed into; raw-element
attribute values are decoded but the raw content is kept verbatim; text
content is decoded. -/
def escNode (ent : String → Option String) (cod : Nat → Option String) :
    HTMLNode → HTMLNode
  | .comment t => .comment t
  | .doctype t => .doctype t
  | .element nm a cs => .element nm (escAttrsL ent cod a) (escNodeList ent cod cs)
  | .rawElement nm a ct => .rawElement nm (escAttrsL ent cod a) ct
  | .void nm a => .void nm (escAttrsL ent cod a)
  | .text t => .text (escText ent cod t)

/-- Escape pass over a node list (`children.into_iter().map(escape_node)`). -/
def escNodeList (ent : String → Option String) (cod : Nat → Option String) :
    List HTMLNode → List HTMLNode
  | [] => []
  | n :: ns => escNode ent cod n :: escNodeList ent cod ns

end

/-- Model of `StrictHTMLParser::parse` (src/parser/html/strict.rs lines
53-61): `all_consuming(parse_escaped)` — run `parse`, fail when input
remains (the error carries the unconsumed input, as the nom error value
does), and apply the escape pass to every parsed node. -/
def parseHtml (ent : String → Option String) (cod : Nat → Option String) (s : String) :
    Except String (List HTMLNode) :=
  match parseNodes (2 * s.length + 2) s.data with
  | none => .error s
  | some ([], ns) => .ok (escNodeList ent cod ns)
  | some (rest, _) => .error (String.mk rest)

/-! ## The query engine

Model of src/query.rs.  `MapNodeIter::next` (lines 311-326) maps, in
recursive mode, every top-level node of the bound forest to
`NodeIter::tree` over it; in strict (non-recursive) mode it takes the
whole forest iterator once and wraps it in `NodeIter::direct`.
`QueryIter::next` (lines 346-362) flattens the produced iterators and
yields the nodes passing the filter, in order.

Modelled from the spec: the `NodeIter` type (`crate::node`) itself is
not part of the source tree — only its callers in src/query.rs are.
`NodeIter::tree` is the depth-first pre-order traversal of a node
including the node itself (the spec's recursive traversal, the
behaviour of `HTMLNodeIter` in src/node.rs, `descendantsList` here);
`NodeIter::direct` wraps an iterator and yields its items — the
direct, non-recursive traversal.  With `direct` applied to the whole
forest iterator, strict mode yields the top-level forest nodes
themselves; this is pinned by the in-repo tests `test_iter_order`
(src/parser/html/node.rs and src/parser/xml/mod.rs), where a strict
query over a matched node's children matches one of those children
itself. -/
def mapNodeChunks (nodes : List HTMLNode) (recursive : Bool) : List (List HTMLNode) :=
  if recursive then nodes.map descendantsList else [nodes]

/-- Model of `QueryIter` (src/query.rs lines 329-362): flatten the
chunks produced by `MapNodeIter` and keep the nodes matching the
filter, in traversal order. -/
def queryRun (nodes : List HTMLNode) (recursive : Bool) (f : Filt) : List HTMLNode :=
  (mapNodeChunks nodes recursive).flatten.filter (filtMatches f)

/-- Statement of the claimed strict-mode semantics, taken from the
spec's words: flatten, for every top-level root node, only its direct
children (excluding the roots themselves), then filter. -/
def specStrictRun (nodes : List HTMLNode) (f : Filt) : List HTMLNode :=
  ((nodes.map childrenOf).flatten).filter (filtMatches f)

/-! ## Supporting lemmas -/

theorem isPrefixL_append_self : ∀ p r : List Char, isPrefixL p (p ++ r) = true
  | [], _ => rfl
  | x :: xs, r => by simp [isPrefixL, isPrefixL_append_self xs r]

theorem isPrefixNoCase_append_self : ∀ p r : List Char, isPrefixNoCase p (p ++ r) = true
  | [], _ => rfl
  | x :: xs, r => by simp [isPrefixNoCase, isPrefixNoCase_append_self xs r]

/-- When the pattern does not occur before the marked position,
`take_until` splits exactly there. -/
theorem takeUntilL_exact : ∀ (c : List Char) (pat tail : List Char), pat ≠ [] →
    (∀ j, j < c.length → isPrefixL pat ((c ++ pat ++ tail).drop j) = false) →
    takeUntilL pat (c ++ pat ++ tail) = some (pat ++ tail, c)
  | [], pat, tail, hne, _ => by
    cases pat with
    | nil => exact absurd rfl hne
    | cons p ps =>
      simp only [List.nil_append]
      rw [show (p :: ps) ++ tail = p :: (ps ++ tail) from rfl]
      simp only [takeUntilL]
      rw [show p :: (ps ++ tail) = (p :: ps) ++ tail from rfl,
        isPrefixL_append_self]
      simp
  | x :: c', pat, tail, hne, hocc => by
    have h0 : isPrefixL pat ((x :: c' ++ pat ++ tail)) = false := by
      have := hocc 0 (by simp)
      simpa using this
    have hrec := takeUntilL_exact c' pat tail hne
      (fun j hj => by
        have := hocc (j + 1) (by simpa using Nat.succ_lt_succ hj)
        simpa using this)
    rw [show x :: c' ++ pat ++ tail = x :: (c' ++ pat ++ tail) from rfl]
    simp only [takeUntilL]
    rw [show x :: (c' ++ pat ++ tail) = (x :: c') ++ pat ++ tail from rfl, h0]
    have hrec' : takeUntilL pat (c' ++ (pat ++ tail)) = some (pat ++ tail, c') := by
      rw [← List.append_assoc]
      exact hrec
    simp [hrec']

/-- Dropping leading whitespace runs past any all-whitespace run and
stops at `>`. -/
theorem skipWs_ws_append (w r : List Char) (hw : ∀ ch ∈ w, isWsChar ch = true) :
    skipWs (w ++ '>' :: r) = '>' :: r := by
  induction w with
  | nil => simp [skipWs, List.dropWhile, isWsChar]
  | cons ch w' ih =>
    have hch : isWsChar ch = true := hw ch (by simp)
    have hw' : ∀ ch' ∈ w', isWsChar ch' = true := fun ch' h => hw ch' (by simp [h])
    simp only [List.cons_append, skipWs, List.dropWhile, hch]
    exact ih hw'

/-- An unresolved-only scan copies its input verbatim. -/
theorem scanEsc_verbatim (ent : String → Option String) (cod : Nat → Option String) :
    ∀ (fuel : Nat) (l : List Char),
      (∀ m ∈ refsIn fuel l, escRef ent cod m = none) →
      scanEsc ent cod fuel l = l
  | 0, l, _ => rfl
  | fuel + 1, [], _ => rfl
  | fuel + 1, c :: rest, h => by
    cases hm : refMatchLen (c :: rest) with
    | some n =>
      have hnone : escRef ent cod (String.mk ((c :: rest).take n)) = none := by
        apply h
        simp [refsIn, hm]
      have hrest : ∀ m ∈ refsIn fuel ((c :: rest).drop n), escRef ent cod m = none := by
        intro m hm'
        apply h
        simp [refsIn, hm, hm']
      simp only [scanEsc, hm, hnone]
      rw [scanEsc_verbatim ent cod fuel _ hrest, List.take_append_drop]
    | none =>
      have hrest : ∀ m ∈ refsIn fuel rest, escRef ent cod m = none := by
        intro m hm'
        apply h
        simp [refsIn, hm, hm']
      simp only [scanEsc, hm]
      rw [scanEsc_verbatim ent cod fuel rest hrest]

/-- `escape_text` leaves a string with no resolvable reference unchanged. -/
theorem escText_verbatim (ent : String → Option String) (cod : Nat → Option String)
    (s : String) (h : ∀ m ∈ refsInStr s, escRef ent cod m = none) :
    escText ent cod s = s := by
  rw [escText, scanEsc_verbatim ent cod s.data.length s.data h]

/-! ## Claim theorems -/

/-- C6: for every node, the depth-first iterator (`HTMLNodeIter`,
src/node.rs) yields the node itself first and then every descendant in
pre-order — each node before its children's subtrees, children in
document order, each child's subtree in full before the next sibling —
as a finite list; the traversal is a pure function of the node, so
repeated construction yields the identical sequence. -/
theorem tree_traversal_c6 (n : HTMLNode) :
    descendantsList n = preorder n ∧
    descendantsList n = n :: preorderList (childrenOf n) := by
  refine ⟨descendantsList_eq_preorder n, ?_⟩
  rw [descendantsList_eq_preorder n, preorder_eq_cons]

/-- C9: for all filters A, B and every node N, `And(A,B)` matches iff
both match, `Or(A,B)` matches iff either matches, and the empty filter
matches unconditionally (src/filter.rs lines 12-42). -/
theorem filter_composition_c9 (A B : Filt) (n : HTMLNode) :
    (filtMatches (.and A B) n = true ↔
      filtMatches A n = true ∧ filtMatches B n = true) ∧
    (filtMatches (.or A B) n = true ↔
      filtMatches A n = true ∨ filtMatches B n = true) ∧
    filtMatches .unit n = true := by
  refine ⟨?_, ?_, rfl⟩
  · simp [filtMatches, Bool.and_eq_true]
  · simp [filtMatches, Bool.or_eq_true]

/-- C7: the Tag filter with a boolean-literal pattern short-circuits to
the literal value without consulting the node; with any other pattern it
matches iff the node has a name and the pattern matches that name, so a
node without a name never matches (src/filter.rs lines 112-130). -/
theorem tag_filter_c7 :
    (∀ (b : Bool) (n : HTMLNode), filtMatches (.tag (.boolP b)) n = b) ∧
    (∀ (p : Pat) (n : HTMLNode), p.asBool = none →
      (filtMatches (.tag p) n = true ↔
        ∃ s, nodeName n = some s ∧ p.matches s = true)) := by
  constructor
  · intro b n
    rfl
  · intro p n h
    simp only [filtMatches, h]
    cases hn : nodeName n <;> simp [hn]

/-- C7 witness: the general statement applied to the literal pattern
`"a"` and a text node. -/
theorem tag_filter_c7_witness :
    Pat.asBool (.strP "a") = none ∧
    (filtMatches (.tag (.strP "a")) (.text "x") = true ↔
      ∃ s, nodeName (.text "x") = some s ∧ (Pat.strP "a").matches s = true) :=
  ⟨rfl, tag_filter_c7.2 (.strP "a") (.text "x") rfl⟩

/-- C8: the Attr filter with a name pattern resolving to a concrete
literal looks up exactly that attribute and matches iff it is present
with a matching value; with a non-literal name pattern it matches iff
some attribute pair matches both patterns; a node without attributes
never matches; and `attr(true, true)` matches exactly the nodes carrying
at least one attribute (src/filter.rs lines 50-81, src/pattern.rs lines
43-67). -/
theorem attr_filter_c8 :
    (∀ (np vp : Pat) (n : HTMLNode) (attrs : List (String × String)) (nm : String),
      nodeAttrs n = some attrs → np.value = some nm →
      (filtMatches (.attr np vp) n = true ↔
        ∃ v, mapGet attrs nm = some v ∧ vp.matches v = true)) ∧
    (∀ (np vp : Pat) (n : HTMLNode) (attrs : List (String × String)),
      nodeAttrs n = some attrs → np.value = none →
      (filtMatches (.attr np vp) n = true ↔
        ∃ p ∈ attrs, np.matches p.1 = true ∧ vp.matches p.2 = true)) ∧
    (∀ (np vp : Pat) (n : HTMLNode), nodeAttrs n = none →
      filtMatches (.attr np vp) n = false) ∧
    (∀ n : HTMLNode,
      filtMatches (.attr (.boolP true) (.boolP true)) n = true ↔
        ∃ attrs, nodeAttrs n = some attrs ∧ attrs ≠ []) := by
  refine ⟨?_, ?_, ?_, ?_⟩
  · intro np vp n attrs nm ha hv
    simp only [filtMatches, ha, hv]
    cases hg : mapGet attrs nm <;> simp [hg]
  · intro np vp n attrs ha hv
    simp only [filtMatches, ha, hv, List.any_eq_true, Bool.and_eq_true]
  · intro np vp n ha
    simp [filtMatches, ha]
  · intro n
    cases hn : nodeAttrs n with
    | none => simp [filtMatches, hn]
    | some attrs =>
      cases attrs with
      | nil => simp [filtMatches, hn, Pat.value]
      | cons p rest =>
        simp [filtMatches, hn, Pat.value, Pat.matches]

/-- C8 witness: the three conditional parts applied at concrete nodes —
literal lookup on a void node with one attribute, pattern scan with a
predicate pattern, and the no-attribute case on a text node. -/
theorem attr_filter_c8_witness :
    (nodeAttrs (.void "hr" [("id", "x")]) = some [("id", "x")] ∧
      (filtMatches (.attr (.strP "id") (.boolP true)) (.void "hr" [("id", "x")]) = true ↔
        ∃ v, mapGet [("id", "x")] "id" = some v ∧ (Pat.boolP true).matches v = true)) ∧
    (nodeAttrs (.void "hr" [("id", "x")]) = some [("id", "x")] ∧
      (filtMatches (.attr (.predP (fun s => s = "id")) (.boolP true))
          (.void "hr" [("id", "x")]) = true ↔
        ∃ p ∈ [("id", "x")], (Pat.predP (fun s => s = "id")).matches p.1 = true ∧
          (Pat.boolP true).matches p.2 = true)) ∧
    filtMatches (.attr (.strP "id") (.boolP true)) (.text "x") = false :=
  ⟨⟨rfl, attr_filter_c8.1 (.strP "id") (.boolP true) (.void "hr" [("id", "x")])
      [("id", "x")] "id" rfl rfl⟩,
   ⟨rfl, attr_filter_c8.2.1 (.predP (fun s => s = "id")) (.boolP true)
      (.void "hr" [("id", "x")]) [("id", "x")] rfl rfl⟩,
   attr_filter_c8.2.2.1 (.strP "id") (.boolP true) (.text "x") rfl⟩

/-- C10: a start tag declaring the same attribute name twice still
parses, and the collected map binds the name exactly once, to the value
of the rightmost declaration; every key of the collected map appears
exactly once, and a key's value is that of its last declaration
(src/parser/html/strict.rs lines 103-130 together with the
`BTreeMap` collection in `void`/`element`). -/
theorem dup_attrs_c10 :
    voidP "<hr value=yes value='no'>".data =
      some ([], .void "hr" [("value", "no")]) ∧
    (∀ (l : List (String × String)) (k : String),
      mapGet (toMap l) k =
        match l.reverse.find? (fun p => p.1 = k) with
        | some p => some p.2
        | none => none) ∧
    (∀ l : List (String × String), ((toMap l).map Prod.fst).Nodup) :=
  ⟨rfl, mapGet_toMap, nodup_keys_toMap⟩

/-- C2: the code's behaviour at the claim's failing inputs.  The Rust
source writes the unquoted-value exclusion set as the RAW string
`r#"\t\n\f\r "'=<>`"#`, so the letters `t`, `n`, `f`, `r` and the
backslash are excluded instead of the tab, newline, form-feed and
carriage-return characters: `<hr value=t>` fails to parse entirely,
while a value containing a literal tab is accepted. -/
theorem unquoted_value_c2 :
    voidP "<hr value=t>".data = none ∧
    voidP "<hr value=yes>".data = some ([], .void "hr" [("value", "yes")]) ∧
    voidP "<hr value=a\tb>".data = some ([], .void "hr" [("value", "a\tb")]) :=
  ⟨rfl, rfl, rfl⟩

/-- C4: a missing close tag (`<div><p>text</p>`) fails the whole parse;
trailing unconsumable input fails the whole parse; and in general, when
the node loop leaves unconsumed input, the parse entry returns an error
carrying that unconsumed input — and since the result is a sum type, no
partial forest accompanies an error
(src/parser/html/strict.rs lines 53-61, 186-213). -/
theorem parse_failure_c4 :
    parseHtml (fun _ => none) (fun _ => none) "<div><p>text</p>" =
      .error "<div><p>text</p>" ∧
    parseHtml (fun _ => none) (fun _ => none) "<a></a></b>" = .error "</b>" ∧
    (∀ (ent : String → Option String) (cod : Nat → Option String) (s : String)
        (rest : List Char) (ns : List HTMLNode),
      parseNodes (2 * s.length + 2) s.data = some (rest, ns) → rest ≠ [] →
      parseHtml ent cod s = .error (String.mk rest)) := by
  refine ⟨rfl, rfl, ?_⟩
  intro ent cod s rest ns h hne
  rw [parseHtml, h]
  cases rest with
  | nil => exact absurd rfl hne
  | cons x xs => rfl

/-- C4 witness: the general leftover statement applied to an input whose
tail cannot be parsed. -/
theorem parse_failure_c4_witness :
    parseNodes (2 * ("<p></p>junk<" : String).length + 2) "<p></p>junk<".data =
      some ("<".data, [.element "p" [] [], .text "junk"]) ∧
    parseHtml (fun _ => none) (fun _ => none) "<p></p>junk<" =
      .error (String.mk "<".data) :=
  ⟨rfl, parse_failure_c4.2.2 (fun _ => none) (fun _ => none) "<p></p>junk<"
    "<".data [.element "p" [] [], .text "junk"] rfl (by simp)⟩

/-- C5: the decode pass rewrites only attribute values and Text content;
Comment, Doctype and RawElement content are stored verbatim, never
decoded; and a text all of whose references fail to resolve is left
exactly as it appeared (src/parser/html/strict.rs lines 248-262 and
271-302), for every entity and codepoint table. -/
theorem escape_scope_c5 :
    (∀ (ent : String → Option String) (cod : Nat → Option String) (t : String),
      escNode ent cod (.comment t) = .comment t) ∧
    (∀ (ent : String → Option String) (cod : Nat → Option String) (t : String),
      escNode ent cod (.doctype t) = .doctype t) ∧
    (∀ (ent : String → Option String) (cod : Nat → Option String)
        (nm : String) (a : List (String × String)) (ct : String),
      escNode ent cod (.rawElement nm a ct) = .rawElement nm (escAttrsL ent cod a) ct) ∧
    (∀ (ent : String → Option String) (cod : Nat → Option String) (t : String),
      escNode ent cod (.text t) = .text (escText ent cod t)) ∧
    (∀ (ent : String → Option String) (cod : Nat → Option String)
        (nm : String) (a : List (String × String)) (cs : List HTMLNode),
      escNode ent cod (.element nm a cs) =
        .element nm (escAttrsL ent cod a) (escNodeList ent cod cs)) ∧
    (∀ (ent : String → Option String) (cod : Nat → Option String) (s : String),
      (∀ m ∈ refsInStr s, escRef ent cod m = none) → escText ent cod s = s) :=
  ⟨fun _ _ _ => rfl, fun _ _ _ => rfl, fun _ _ _ _ _ => rfl, fun _ _ _ => rfl,
   fun _ _ _ _ _ => rfl, escText_verbatim⟩

/-- C5 witness: the unresolved-reference part applied to empty tables
and a text containing one unresolvable reference. -/
theorem escape_scope_c5_witness :
    (∀ m ∈ refsInStr "A &bogus; B", escRef (fun _ => none) (fun _ => none) m = none) ∧
    escText (fun _ => none) (fun _ => none) "A &bogus; B" = "A &bogus; B" := by
  have h : ∀ m ∈ refsInStr "A &bogus; B",
      escRef (fun _ => none) (fun _ => none) m = none := by
    intro m hm
    have : m = "&bogus;" := by
      have he : refsInStr "A &bogus; B" = ["&bogus;"] := rfl
      rw [he] at hm
      simpa using hm
    rw [this]
    rfl
  exact ⟨h, escape_scope_c5.2.2.2.2.2 (fun _ => none) (fun _ => none) "A &bogus; B" h⟩

/-- C1 counterexample: the claim's strict-mode semantics — filtering the
direct children of each top-level root, excluding the roots — differs
from the code on the one-element forest `[<a/>]` with the tag("a")
filter: the query engine matches the root `<a>` itself, while the
claimed semantics matches nothing. -/
theorem query_strict_c1_counterexample :
    queryRun [.element "a" [] []] false (.tag (.strP "a")) ≠
      specStrictRun [.element "a" [] []] (.tag (.strP "a")) := by
  intro h
  have h1 : queryRun [.element "a" [] []] false (.tag (.strP "a")) =
      [.element "a" [] []] := rfl
  have h2 : specStrictRun [.element "a" [] []] (.tag (.strP "a")) = [] := rfl
  rw [h1, h2] at h
  exact List.cons_ne_nil _ _ h

/-- C1 (amended): a recursive query applies the filter, in order, to the
concatenated pre-order depth-first sequences (each root included) of the
top-level roots; a strict query applies the filter to the top-level root
nodes of the bound forest themselves, with no recursion into
descendants (src/query.rs lines 311-326 and 346-362).  The concrete
conjunct runs the spec's scope example: over the body forest the
recursive tag("a") matches first the outer `<a>Broken</a>`, then the
nested link. -/
theorem query_modes_c1 :
    (∀ (nodes : List HTMLNode) (f : Filt),
      queryRun nodes true f = (nodes.map preorder).flatten.filter (filtMatches f) ∧
      queryRun nodes false f = nodes.filter (filtMatches f)) ∧
    queryRun
      [.element "body" [] [.element "a" [] [.text "Broken"],
        .element "div" [] [.element "a" [("href", "x")] [.text "Example"]]]]
      true (.tag (.strP "a")) =
      [.element "a" [] [.text "Broken"],
       .element "a" [("href", "x")] [.text "Example"]] := by
  refine ⟨fun nodes f => ⟨?_, ?_⟩, rfl⟩
  · rw [queryRun, mapNodeChunks]
    have hmap : nodes.map descendantsList = nodes.map preorder :=
      List.map_congr_left (fun a _ => descendantsList_eq_preorder a)
    simp [hmap]
  · rw [queryRun, mapNodeChunks]
    simp

/-- C3 counterexample: the claim's case-insensitive close matching fails
on the code — the scan looks for the literal `</` followed by the
opening name in its parsed casing, so `<SCRIPT>hi</script>` does not
parse, although the claim requires it to parse with content `hi`. -/
theorem raw_element_c3_counterexample :
    rawElementP "<SCRIPT>hi</script>".data = none := rfl

/-- C3 (amended): a self-closed raw start tag yields empty content; a
non-self-closed one takes the body verbatim up to the first occurrence
of the literal `</` followed by the opening name in its exact parsed
casing, requires optional whitespace and `>` to complete the close
there, and stores the scanned interior trimmed of surrounding
whitespace (src/parser/html/strict.rs lines 157-184).  The concrete
conjunct shows the body is not parsed as markup. -/
theorem raw_element_c3 :
    (∀ (i left : List Char) (nm : String) (ats : List (String × String)),
      startTagP rawInner i = some (left, (nm, ats, true)) →
      rawElementP i = some (left, .rawElement nm (toMap ats) "")) ∧
    (∀ (i left : List Char) (nm : String) (ats : List (String × String))
        (c w r : List Char),
      startTagP rawInner i = some (left, (nm, ats, false)) →
      left = c ++ ('<' :: '/' :: nm.data) ++ (w ++ '>' :: r) →
      (∀ j, j < c.length → isPrefixL ('<' :: '/' :: nm.data) (left.drop j) = false) →
      (∀ ch ∈ w, isWsChar ch = true) →
      rawElementP i = some (r, .rawElement nm (toMap ats) (String.mk (trimL c)))) ∧
    rawElementP "<script>if (1 < 2) \x7b x(); \x7d</script>".data =
      some ([], .rawElement "script" [] "if (1 < 2) \x7b x(); \x7d") := by
  refine ⟨?_, ?_, rfl⟩
  · intro i left nm ats h
    simp only [rawElementP, h]
  · intro i left nm ats c w r hstart hleft hocc hw
    have hpat : ('<' :: '/' :: nm.data) ≠ [] := by simp
    have htu : takeUntilL ('<' :: '/' :: nm.data) left =
        some (('<' :: '/' :: nm.data) ++ (w ++ '>' :: r), c) := by
      rw [hleft]
      exact takeUntilL_exact c _ _ hpat (fun j hj => hleft ▸ hocc j hj)
    have h1 : tagL ['<', '/'] (('<' :: '/' :: nm.data) ++ (w ++ '>' :: r)) =
        some (nm.data ++ (w ++ '>' :: r)) := by
      simp [tagL, isPrefixL]
    have h2 : tagNoCaseL nm.data (nm.data ++ (w ++ '>' :: r)) =
        some (w ++ '>' :: r, nm.data) := by
      rw [tagNoCaseL, isPrefixNoCase_append_self]
      simp [List.drop_left, List.take_left]
    simp only [rawElementP, hstart, htu, h1, h2, skipWs_ws_append w r hw]

/-- C3 witness: the general non-self-closed statement applied to
`<style> hi </style>rest`, where the scan stops at the exact-case close
and the content is trimmed. -/
theorem raw_element_c3_witness :
    startTagP rawInner "<style> hi </style>rest".data =
      some (" hi </style>rest".data, ("style", [], false)) ∧
    rawElementP "<style> hi </style>rest".data =
      some ("rest".data, .rawElement "style" [] "hi") :=
  ⟨rfl, raw_element_c3.2.1 "<style> hi </style>rest".data " hi </style>rest".data
    "style" [] " hi ".data [] "rest".data rfl rfl (by decide) (by simp)⟩
